import Mathlib

/-!
Shallow embedding of `src/c1_state_machine/p5_digital_cash.rs`, the digital
cash state machine of this repository.

Rust `u64` values are modelled as `Nat`.  Every arithmetic operation of the
source that can overflow (`next_serial += 1` in `increment_serial`,
`total_amount_spent += bill.amount` in the spends loop, and the addition
`next_state.next_serial + j` in the serial-contiguity check) is performed
modulo `2 ^ 64` (`u64Mod`), matching the wrapping behaviour of release-mode
Rust; the guarded `checked_add` on the receive side is modelled by its exact
guard (`none` exactly when the true sum would exceed `u64::MAX`).
`HashSet<Bill>` is modelled as `Finset Bill` (value equality, as given by the
derived `Eq`/`Hash` on the full tuple), `Vec<Bill>` as `List Bill`.
-/

namespace DigitalCash

/-- Modelled from the spec: the closed, externally defined enumeration of
participant identities (`super::User`, whose defining module is not under
`src/`); §6 of the spec requires only an equality-comparable closed set of
labels, and the repository's tests use Alice, Bob and Charlie. -/
inductive User where
  | Alice
  | Bob
  | Charlie
deriving DecidableEq

/-- `2 ^ 64`, the modulus of Rust `u64` arithmetic. -/
def u64Mod : Nat := 2 ^ 64

/-- A bill (`struct Bill`): owner, amount and serial number.  Equality and
set membership are on the full triple, as in the derived Rust instances. -/
structure Bill where
  owner : User
  amount : Nat
  serial : Nat
deriving DecidableEq

/-- The state (`struct State`): the set of circulating bills and the next
serial number. -/
structure State where
  bills : Finset Bill
  next_serial : Nat

instance : DecidableEq State := fun a b =>
  decidable_of_iff (a.bills = b.bills ∧ a.next_serial = b.next_serial)
    (by
      cases a
      cases b
      constructor
      · intro h
        cases h.1
        cases h.2
        rfl
      · intro h
        cases h
        exact ⟨rfl, rfl⟩)

/-- `State::new()`. -/
def State.new : State := ⟨∅, 0⟩

/-- `State::increment_serial` (`self.next_serial += 1`, wrapping). -/
def State.increment_serial (s : State) : State :=
  { s with next_serial := (s.next_serial + 1) % u64Mod }

/-- `State::add_bill`: insert the bill, then increment the serial. -/
def State.add_bill (s : State) (elem : Bill) : State :=
  State.increment_serial { s with bills := insert elem s.bills }

/-- `enum CashTransaction`. -/
inductive CashTransaction where
  | Mint (minter : User) (amount : Nat)
  | Transfer (spends : List Bill) (receives : List Bill)

/-- The receives loop of `next_state` (lines 119-129): reject a zero-amount
bill or a bill also in `spends`, reject on `checked_add` overflow, otherwise
accumulate `total_amount_received`. -/
def receiveScan (sp : List Bill) : List Bill → Nat → Option Nat
  | [], acc => some acc
  | b :: rest, acc =>
    if b.amount = 0 ∨ b ∈ sp then none
    else if u64Mod ≤ acc + b.amount then none
    else receiveScan sp rest (acc + b.amount)

/-- The spends loop of `next_state` (lines 131-137): every spent bill must
be in the bill set; `total_amount_spent += bill.amount` is unguarded, so it
is accumulated modulo `2 ^ 64`. -/
def spendScan (bills : Finset Bill) : List Bill → Nat → Option Nat
  | [], acc => some acc
  | b :: rest, acc =>
    if b ∈ bills then spendScan bills rest ((acc + b.amount) % u64Mod)
    else none

/-- The duplicate-spends double loop (lines 140-146): true iff some two
positions of the list hold equal bills. -/
def hasDup : List Bill → Bool
  | [] => false
  | b :: rest => decide (b ∈ rest) || hasDup rest

/-- The spend/receive serial collision double loop (lines 148-154). -/
def serialClash (sp rc : List Bill) : Bool :=
  sp.any fun a => rc.any fun b => a.serial == b.serial

/-- The serial-contiguity loop (lines 156-162): entry `i` of `receives` must
carry serial `next_serial + j` with `j = i`, the addition being performed in
`u64` (wrapping) arithmetic. -/
def serialsValid (ns : Nat) : Nat → List Bill → Bool
  | _, [] => true
  | j, b :: rest => (b.serial == (ns + j) % u64Mod) && serialsValid ns (j + 1) rest

/-- The commit block (lines 167-174): insert every received bill via
`add_bill`, then remove every spent bill. -/
def commitState (s : State) (sp rc : List Bill) : State :=
  let c := rc.foldl State.add_bill s
  { c with bills := sp.foldl Finset.erase c.bills }

/-- `DigitalCashSystem::next_state` (lines 96-178). -/
def next_state (starting_state : State) (t : CashTransaction) : State :=
  match t with
  | .Mint minter amount =>
    State.add_bill starting_state ⟨minter, amount, starting_state.next_serial⟩
  | .Transfer spends receives =>
    if spends.isEmpty then starting_state
    else if receives.isEmpty then
      { starting_state with
        bills := starting_state.bills.filter (fun bill => bill ∉ spends) }
    else
      match receiveScan spends receives 0 with
      | none => starting_state
      | some total_amount_received =>
        match spendScan starting_state.bills spends 0 with
        | none => starting_state
        | some total_amount_spent =>
          if hasDup spends then starting_state
          else if serialClash spends receives then starting_state
          else if serialsValid starting_state.next_serial 0 receives then
            if total_amount_spent < total_amount_received then starting_state
            else commitState starting_state spends receives
          else starting_state

/-- The conjunction of all conditions under which the `Transfer` branch of
`next_state` reaches the commit block. -/
def codeAcceptsB (s : State) (sp rc : List Bill) : Bool :=
  !sp.isEmpty && !rc.isEmpty &&
    match receiveScan sp rc 0, spendScan s.bills sp 0 with
    | some tr, some ts =>
      !hasDup sp && !serialClash sp rc && serialsValid s.next_serial 0 rc &&
        decide (tr ≤ ts)
    | _, _ => false

/-- Transcribed from the claim C1 / spec §4.2: the listed conditions under
which a `Transfer` "fails a validation check" (the burn branch, §4.2 step 2,
is a success path and is therefore excluded by the `rc ≠ []` guard); the
serial-contiguity condition is read in exact arithmetic, as the spec words
it. -/
def specRejects (s : State) (sp rc : List Bill) : Prop :=
  sp = [] ∨ (sp ≠ [] ∧ rc ≠ [] ∧ (
    (∃ b ∈ rc, b.amount = 0) ∨
    (∃ b ∈ rc, b ∈ sp) ∨
    u64Mod ≤ (rc.map Bill.amount).sum ∨
    (∃ b ∈ sp, b ∉ s.bills) ∨
    ¬ sp.Nodup ∨
    (∃ a ∈ sp, ∃ b ∈ rc, a.serial = b.serial) ∨
    rc.map Bill.serial ≠ List.range' s.next_serial rc.length ∨
    (sp.map Bill.amount).sum < (rc.map Bill.amount).sum))

instance (s : State) (sp rc : List Bill) : Decidable (specRejects s sp rc) := by
  unfold specRejects
  exact inferInstance

/-- Run a sequence of transactions from `State::new()`. -/
def run (trace : List CashTransaction) : State :=
  trace.foldl next_state State.new

/-- Number of bills created by one transition: one for a mint, the length of
`receives` for a committed transfer, zero otherwise. -/
def createdBy (s : State) (t : CashTransaction) : Nat :=
  match t with
  | .Mint _ _ => 1
  | .Transfer sp rc => if codeAcceptsB s sp rc then rc.length else 0

/-- Number of bills created along a trace started at `s`. -/
def createdFrom (s : State) : List CashTransaction → Nat
  | [] => 0
  | t :: rest => createdBy s t + createdFrom (next_state s t) rest

/-- Number of bills created along a trace started at `State::new()`. -/
def createdCount (trace : List CashTransaction) : Nat :=
  createdFrom State.new trace

/-! ### Helper lemmas about the validation scans -/

theorem State.ext_iff' (a b : State) :
    a = b ↔ a.bills = b.bills ∧ a.next_serial = b.next_serial := by
  cases a
  cases b
  constructor
  · intro h
    cases h
    exact ⟨rfl, rfl⟩
  · intro h
    cases h.1
    cases h.2
    rfl

theorem receiveScan_some_pos {sp : List Bill} : ∀ {l : List Bill} {acc t : Nat},
    receiveScan sp l acc = some t → ∀ b ∈ l, b.amount ≠ 0 ∧ b ∉ sp := by
  intro l
  induction l with
  | nil => intro acc t _ b hb; cases hb
  | cons a rest ih =>
    intro acc t h b hb
    simp only [receiveScan] at h
    split at h
    case isTrue h1 => exact Option.noConfusion h
    case isFalse h1 =>
      split at h
      case isTrue h2 => exact Option.noConfusion h
      case isFalse h2 =>
        cases hb with
        | head => exact ⟨fun hz => h1 (Or.inl hz), fun hm => h1 (Or.inr hm)⟩
        | tail _ hb' => exact ih h b hb'

theorem receiveScan_some_sum {sp : List Bill} : ∀ {l : List Bill} {acc t : Nat},
    acc < u64Mod → receiveScan sp l acc = some t →
    t = acc + (l.map Bill.amount).sum ∧ t < u64Mod := by
  intro l
  induction l with
  | nil =>
    intro acc t hacc h
    simp only [receiveScan] at h
    injection h with h'
    subst h'
    exact ⟨by simp, hacc⟩
  | cons a rest ih =>
    intro acc t hacc h
    simp only [receiveScan] at h
    split at h
    case isTrue h1 => exact Option.noConfusion h
    case isFalse h1 =>
      split at h
      case isTrue h2 => exact Option.noConfusion h
      case isFalse h2 =>
        have hlt : acc + a.amount < u64Mod := Nat.lt_of_not_le h2
        obtain ⟨ht, hb⟩ := ih hlt h
        refine ⟨?_, hb⟩
        rw [ht]
        simp only [List.map_cons, List.sum_cons]
        omega

theorem spendScan_some_mem {bills : Finset Bill} : ∀ {l : List Bill} {acc t : Nat},
    spendScan bills l acc = some t → ∀ b ∈ l, b ∈ bills := by
  intro l
  induction l with
  | nil => intro acc t _ b hb; cases hb
  | cons a rest ih =>
    intro acc t h b hb
    simp only [spendScan] at h
    split at h
    case isTrue h1 =>
      cases hb with
      | head => exact h1
      | tail _ hb' => exact ih h b hb'
    case isFalse h1 => exact Option.noConfusion h

theorem spendScan_some_le {bills : Finset Bill} : ∀ {l : List Bill} {acc t : Nat},
    spendScan bills l acc = some t → t ≤ acc + (l.map Bill.amount).sum := by
  intro l
  induction l with
  | nil =>
    intro acc t h
    simp only [spendScan] at h
    injection h with h'
    subst h'
    simp
  | cons a rest ih =>
    intro acc t h
    simp only [spendScan] at h
    split at h
    case isTrue h1 =>
      have h2 := ih h
      have h3 := Nat.mod_le (acc + a.amount) u64Mod
      simp only [List.map_cons, List.sum_cons]
      omega
    case isFalse h1 => exact Option.noConfusion h

theorem spendScan_none_of_missing {bills : Finset Bill} : ∀ {l : List Bill} {b : Bill},
    b ∈ l → b ∉ bills → ∀ acc, spendScan bills l acc = none := by
  intro l
  induction l with
  | nil => intro b hb; cases hb
  | cons a rest ih =>
    intro b hb hnb acc
    simp only [spendScan]
    split
    case isTrue h1 =>
      cases hb with
      | head => exact absurd h1 hnb
      | tail _ hb' => exact ih hb' hnb _
    case isFalse h1 => rfl

theorem nodup_of_hasDup_eq_false : ∀ {l : List Bill}, hasDup l = false → l.Nodup := by
  intro l
  induction l with
  | nil => intro _; exact List.nodup_nil
  | cons a rest ih =>
    intro h
    simp only [hasDup, Bool.or_eq_false_iff, decide_eq_false_iff_not] at h
    exact List.nodup_cons.mpr ⟨h.1, ih h.2⟩

theorem serialClash_eq_false {sp rc : List Bill} (h : serialClash sp rc = false) :
    ∀ a ∈ sp, ∀ b ∈ rc, a.serial ≠ b.serial := by
  intro a ha b hb hab
  have ht : serialClash sp rc = true := by
    simp only [serialClash, List.any_eq_true]
    exact ⟨a, ha, b, hb, by simp [hab]⟩
  rw [ht] at h
  exact Bool.noConfusion h

theorem serialsValid_map : ∀ {l : List Bill} {ns j : Nat},
    ns + j + l.length ≤ u64Mod → serialsValid ns j l = true →
    l.map Bill.serial = List.range' (ns + j) l.length := by
  intro l
  induction l with
  | nil => intro ns j _ _; rfl
  | cons a rest ih =>
    intro ns j hle h
    simp only [serialsValid, Bool.and_eq_true, beq_iff_eq] at h
    obtain ⟨h1, h2⟩ := h
    have hlt : ns + j < u64Mod := by
      simp only [List.length_cons] at hle
      omega
    have ih' := ih (by simp only [List.length_cons] at hle; omega) h2
    simp only [List.map_cons, List.length_cons]
    rw [show List.range' (ns + j) (rest.length + 1) =
      (ns + j) :: List.range' (ns + j + 1) rest.length from rfl]
    rw [h1, Nat.mod_eq_of_lt hlt]
    exact congrArg _ ih'

/-! ### Helper lemmas about the commit block -/

theorem foldl_add_bill_mem : ∀ {l : List Bill} {s : State} {x : Bill},
    x ∈ (l.foldl State.add_bill s).bills ↔ x ∈ s.bills ∨ x ∈ l := by
  intro l
  induction l with
  | nil => intro s x; simp
  | cons a rest ih =>
    intro s x
    simp only [List.foldl_cons]
    rw [ih]
    show x ∈ insert a s.bills ∨ x ∈ rest ↔ _
    simp only [Finset.mem_insert, List.mem_cons]
    tauto

theorem foldl_add_bill_ns : ∀ {l : List Bill} {s : State},
    s.next_serial + l.length < u64Mod →
    (l.foldl State.add_bill s).next_serial = s.next_serial + l.length := by
  intro l
  induction l with
  | nil => intro s _; simp
  | cons a rest ih =>
    intro s h
    simp only [List.length_cons] at h
    have h1 : (State.add_bill s a).next_serial = s.next_serial + 1 := by
      show (s.next_serial + 1) % u64Mod = s.next_serial + 1
      exact Nat.mod_eq_of_lt (by omega)
    simp only [List.foldl_cons, List.length_cons]
    rw [ih (by rw [h1]; omega), h1]
    omega

theorem foldl_erase_mem : ∀ {l : List Bill} {bs : Finset Bill} {x : Bill},
    x ∈ l.foldl Finset.erase bs ↔ x ∈ bs ∧ x ∉ l := by
  intro l
  induction l with
  | nil => intro bs x; simp
  | cons a rest ih =>
    intro bs x
    simp only [List.foldl_cons]
    rw [ih]
    simp only [Finset.mem_erase, List.mem_cons]
    tauto

theorem commitState_mem {s : State} {sp rc : List Bill} {x : Bill} :
    x ∈ (commitState s sp rc).bills ↔ (x ∈ s.bills ∨ x ∈ rc) ∧ x ∉ sp := by
  show x ∈ sp.foldl Finset.erase (rc.foldl State.add_bill s).bills ↔ _
  rw [foldl_erase_mem, foldl_add_bill_mem]

theorem commitState_ns {s : State} {sp rc : List Bill}
    (h : s.next_serial + rc.length < u64Mod) :
    (commitState s sp rc).next_serial = s.next_serial + rc.length := by
  show (rc.foldl State.add_bill s).next_serial = _
  exact foldl_add_bill_ns h

/-! ### The accept/reject dichotomy of the `Transfer` branch -/

theorem codeAcceptsB_eq_true {s : State} {sp rc : List Bill} :
    codeAcceptsB s sp rc = true ↔
      sp ≠ [] ∧ rc ≠ [] ∧ ∃ tr ts, receiveScan sp rc 0 = some tr ∧
        spendScan s.bills sp 0 = some ts ∧ hasDup sp = false ∧
        serialClash sp rc = false ∧ serialsValid s.next_serial 0 rc = true ∧
        tr ≤ ts := by
  cases sp with
  | nil => simp [codeAcceptsB]
  | cons a sp' =>
    cases rc with
    | nil => simp [codeAcceptsB]
    | cons b rc' =>
      unfold codeAcceptsB
      cases hr : receiveScan (a :: sp') (b :: rc') 0 with
      | none => simp [hr]
      | some tr =>
        cases hs : spendScan s.bills (a :: sp') 0 with
        | none => simp [hs]
        | some ts =>
          constructor
          · intro h
            simp only [List.isEmpty_cons, Bool.not_false, Bool.true_and,
              Bool.and_eq_true, Bool.not_eq_true', decide_eq_true_eq] at h
            exact ⟨by simp, by simp, tr, ts, rfl, rfl, h.1.1.1, h.1.1.2, h.1.2, h.2⟩
          · rintro ⟨-, -, tr', ts', e1, e2, h3, h4, h5, h6⟩
            injection e1 with e1'
            injection e2 with e2'
            subst e1'
            subst e2'
            simp only [List.isEmpty_cons, Bool.not_false, Bool.true_and,
              Bool.and_eq_true, Bool.not_eq_true', decide_eq_true_eq]
            exact ⟨⟨⟨h3, h4⟩, h5⟩, h6⟩

theorem next_state_transfer_eq (s : State) (sp rc : List Bill) (hrc : rc ≠ []) :
    next_state s (.Transfer sp rc) =
      if codeAcceptsB s sp rc then commitState s sp rc else s := by
  cases sp with
  | nil =>
    have hA : codeAcceptsB s [] rc = false := by
      cases hr : receiveScan [] rc 0 <;> simp [codeAcceptsB, hr]
    simp [next_state, hA]
  | cons a sp' =>
    cases rc with
    | nil => exact absurd rfl hrc
    | cons b rc' =>
      simp only [next_state, List.isEmpty_cons, Bool.false_eq_true, if_false]
      cases hr : receiveScan (a :: sp') (b :: rc') 0 with
      | none =>
        have hA : codeAcceptsB s (a :: sp') (b :: rc') = false := by
          simp [codeAcceptsB, hr]
        simp [hA]
      | some tr =>
        cases hs : spendScan s.bills (a :: sp') 0 with
        | none =>
          have hA : codeAcceptsB s (a :: sp') (b :: rc') = false := by
            simp [codeAcceptsB, hr, hs]
          simp [hA]
        | some ts =>
          by_cases hd : hasDup (a :: sp') = true
          · have hA : codeAcceptsB s (a :: sp') (b :: rc') = false := by
              simp [codeAcceptsB, hr, hs, hd]
            simp [hd, hA]
          · by_cases hc : serialClash (a :: sp') (b :: rc') = true
            · have hA : codeAcceptsB s (a :: sp') (b :: rc') = false := by
                simp [codeAcceptsB, hr, hs, hd, hc]
              simp [hd, hc, hA]
            · by_cases hv : serialsValid s.next_serial 0 (b :: rc') = true
              · by_cases hlt : ts < tr
                · have hA : codeAcceptsB s (a :: sp') (b :: rc') = false := by
                    simp [codeAcceptsB, hr, hs, hd, hc, hv]
                    omega
                  simp [hd, hc, hv, hlt, hA]
                · have hA : codeAcceptsB s (a :: sp') (b :: rc') = true := by
                    simp [codeAcceptsB, hr, hs, hd, hc, hv]
                    omega
                  simp [hd, hc, hv, hlt, hA]
              · have hA : codeAcceptsB s (a :: sp') (b :: rc') = false := by
                  simp [codeAcceptsB, hr, hs, hd, hc, hv]
                simp [hd, hc, hv, hA]

theorem next_state_transfer_reject {s : State} {sp rc : List Bill} (hrc : rc ≠ [])
    (h : codeAcceptsB s sp rc = false) : next_state s (.Transfer sp rc) = s := by
  rw [next_state_transfer_eq s sp rc hrc, h]
  rfl

theorem next_state_transfer_accept {s : State} {sp rc : List Bill}
    (h : codeAcceptsB s sp rc = true) :
    next_state s (.Transfer sp rc) = commitState s sp rc := by
  have hrc : rc ≠ [] := by
    intro he
    subst he
    simp [codeAcceptsB] at h
  rw [next_state_transfer_eq s sp rc hrc, h]
  rfl

theorem next_state_transfer_burn (s : State) (sp : List Bill) (hsp : sp ≠ []) :
    next_state s (.Transfer sp []) =
      { s with bills := s.bills.filter (fun b => b ∉ sp) } := by
  cases sp with
  | nil => exact absurd rfl hsp
  | cons a sp' => simp [next_state]

theorem next_state_empty_spends (s : State) (rc : List Bill) :
    next_state s (.Transfer [] rc) = s := by
  simp [next_state]

theorem bool_eq_false {b : Bool} (h : ¬ b = true) : b = false := by
  cases b
  · rfl
  · exact absurd rfl h

theorem codeAcceptsB_eq_false_of_spendScan_none {s : State} {sp rc : List Bill}
    (h : spendScan s.bills sp 0 = none) : codeAcceptsB s sp rc = false := by
  unfold codeAcceptsB
  rw [h]
  cases receiveScan sp rc 0 <;> simp

/-! ### Claim theorems -/

theorem next_state_mint (s : State) (m : User) (a : Nat)
    (h : s.next_serial + 1 < u64Mod) :
    next_state s (.Mint m a) =
      ⟨insert ⟨m, a, s.next_serial⟩ s.bills, s.next_serial + 1⟩ := by
  refine (State.ext_iff' _ _).mpr ⟨rfl, ?_⟩
  show (s.next_serial + 1) % u64Mod = s.next_serial + 1
  exact Nat.mod_eq_of_lt h

/-- C8 (amended with the hypothesis `next_serial + 1 < 2 ^ 64`): a mint always
succeeds with no validation on the amount; it adds exactly the bill
`{owner := minter, amount, serial := next_serial}` and advances `next_serial`
by one.  At `next_serial = u64::MAX` the unguarded increment wraps instead
(see the counterexample). -/
theorem mint_spec (s : State) (m : User) (a : Nat)
    (h : s.next_serial + 1 < u64Mod) :
    next_state s (.Mint m a) =
      ⟨insert ⟨m, a, s.next_serial⟩ s.bills, s.next_serial + 1⟩ :=
  next_state_mint s m a h

/-- C8, witness: the spec's mint scenario
`apply(State{bills:{}, next_serial:0}, Mint{Alice, 20})`. -/
theorem mint_spec_witness :
    next_state State.new (.Mint .Alice 20) = ⟨{⟨.Alice, 20, 0⟩}, 1⟩ :=
  (mint_spec State.new .Alice 20 (by decide)).trans (by decide)

/-- C8, counterexample to the unamended claim: minting at
`next_serial = u64::MAX` does not produce `next_serial + 1` (the increment
wraps to `0`). -/
theorem mint_serial_wrap_cex :
    next_state ⟨∅, u64Mod - 1⟩ (.Mint .Alice 20) ≠
      ⟨insert ⟨.Alice, 20, u64Mod - 1⟩ ∅, (u64Mod - 1) + 1⟩ := by decide

/-- C10: the burn branch (non-empty spends, empty receives) leaves the
`next_serial` field exactly unchanged; only the bill set can change. -/
theorem burn_preserves_next_serial (s : State) (sp : List Bill) (hsp : sp ≠ []) :
    (next_state s (.Transfer sp [])).next_serial = s.next_serial := by
  rw [next_state_transfer_burn s sp hsp]

/-- C10, witness. -/
theorem burn_preserves_next_serial_witness :
    (next_state ⟨{⟨.Alice, 20, 0⟩}, 1⟩ (.Transfer [⟨.Alice, 20, 0⟩] [])).next_serial =
      (⟨{⟨.Alice, 20, 0⟩}, 1⟩ : State).next_serial :=
  burn_preserves_next_serial _ _ (by decide)

/-- C9: a transfer with non-empty spends and empty receives never fails: the
result keeps exactly the bills not listed in `spends` (existing spends are
removed, missing spends are silently ignored) and keeps `next_serial`. -/
theorem burn_branch_spec (s : State) (sp : List Bill) (hsp : sp ≠ []) :
    next_state s (.Transfer sp []) =
      { s with bills := s.bills.filter (fun b => b ∉ sp) } ∧
    ∀ b : Bill, b ∈ (next_state s (.Transfer sp [])).bills ↔ b ∈ s.bills ∧ b ∉ sp := by
  refine ⟨next_state_transfer_burn s sp hsp, ?_⟩
  intro b
  rw [next_state_transfer_burn s sp hsp]
  show b ∈ s.bills.filter (fun b => b ∉ sp) ↔ _
  simp [Finset.mem_filter]

/-- C9, witness: the spec's §8 burn scenario — spending `Bill(Alice,20,0)`
with empty receives from the state `{Bill(Alice,20,0)}, next_serial = 1`
yields the empty bill set with `next_serial = 1`. -/
theorem burn_branch_spec_witness :
    next_state ⟨{⟨.Alice, 20, 0⟩}, 1⟩ (.Transfer [⟨.Alice, 20, 0⟩] []) =
      ⟨∅, 1⟩ :=
  ((burn_branch_spec ⟨{⟨.Alice, 20, 0⟩}, 1⟩ [⟨.Alice, 20, 0⟩] (by decide)).1).trans
    (by decide)

/-- C3: any transfer with non-empty spends and receives that changes the
state conserves value in exact arithmetic (sum of received amounts is at
most the sum of spent amounts), and a mint adds exactly the one requested
bill to the bill set. -/
theorem value_conservation_and_mint :
    (∀ (s : State) (sp rc : List Bill), sp ≠ [] → rc ≠ [] →
      next_state s (.Transfer sp rc) ≠ s →
      (rc.map Bill.amount).sum ≤ (sp.map Bill.amount).sum) ∧
    (∀ (s : State) (m : User) (amt : Nat),
      (next_state s (.Mint m amt)).bills = insert ⟨m, amt, s.next_serial⟩ s.bills) := by
  constructor
  · intro s sp rc hsp hrc hne
    by_cases hA : codeAcceptsB s sp rc = true
    · obtain ⟨-, -, tr, ts, hr, hs, -, -, -, hle⟩ := codeAcceptsB_eq_true.mp hA
      have h1 := receiveScan_some_sum (by decide) hr
      have h2 := spendScan_some_le hs
      omega
    · exact absurd (next_state_transfer_reject hrc (bool_eq_false hA)) hne
  · intro s m amt
    rfl

/-- C3, witness: the fan-out transfer scenario and a concrete mint. -/
theorem value_conservation_and_mint_witness :
    (([⟨.Alice, 10, 1⟩, ⟨.Bob, 10, 2⟩, ⟨.Charlie, 10, 3⟩] : List Bill).map
        Bill.amount).sum ≤
      (([⟨.Alice, 42, 0⟩] : List Bill).map Bill.amount).sum ∧
    (next_state ⟨∅, 0⟩ (.Mint .Bob 7)).bills = insert ⟨.Bob, 7, 0⟩ ∅ :=
  ⟨value_conservation_and_mint.1 ⟨{⟨.Alice, 42, 0⟩}, 1⟩ _ _
      (by decide) (by decide) (by decide),
    (value_conservation_and_mint.2 ⟨∅, 0⟩ .Bob 7).trans (by decide)⟩

/-- C4: a bill removed by a successful transfer can never be spent again —
re-applying the same transfer to the resulting state fails the
spend-existence check (the spends scan returns `none`) and leaves that state
unchanged. -/
theorem no_double_spend (s : State) (sp rc : List Bill) (hsp : sp ≠ [])
    (hrc : rc ≠ []) (hne : next_state s (.Transfer sp rc) ≠ s) :
    spendScan (next_state s (.Transfer sp rc)).bills sp 0 = none ∧
    next_state (next_state s (.Transfer sp rc)) (.Transfer sp rc) =
      next_state s (.Transfer sp rc) := by
  have hA : codeAcceptsB s sp rc = true := by
    by_contra h
    exact hne (next_state_transfer_reject hrc (bool_eq_false h))
  rw [next_state_transfer_accept hA]
  obtain ⟨b, hb⟩ : ∃ b, b ∈ sp := by
    cases sp with
    | nil => exact absurd rfl hsp
    | cons x xs => exact ⟨x, List.mem_cons_self x xs⟩
  have hnotin : b ∉ (commitState s sp rc).bills := by
    rw [commitState_mem]
    intro hcontra
    exact hcontra.2 hb
  have hscan : spendScan (commitState s sp rc).bills sp 0 = none :=
    spendScan_none_of_missing hb hnotin 0
  exact ⟨hscan, next_state_transfer_reject hrc
    (codeAcceptsB_eq_false_of_spendScan_none hscan)⟩

/-- C4, witness: a committed fan-out transfer, re-applied. -/
theorem no_double_spend_witness :
    next_state (next_state ⟨{⟨.Bob, 42, 0⟩}, 1⟩
        (.Transfer [⟨.Bob, 42, 0⟩] [⟨.Alice, 10, 1⟩, ⟨.Bob, 10, 2⟩, ⟨.Charlie, 22, 3⟩]))
      (.Transfer [⟨.Bob, 42, 0⟩] [⟨.Alice, 10, 1⟩, ⟨.Bob, 10, 2⟩, ⟨.Charlie, 22, 3⟩]) =
    next_state ⟨{⟨.Bob, 42, 0⟩}, 1⟩
      (.Transfer [⟨.Bob, 42, 0⟩] [⟨.Alice, 10, 1⟩, ⟨.Bob, 10, 2⟩, ⟨.Charlie, 22, 3⟩]) :=
  (no_double_spend _ _ _ (by decide) (by decide) (by decide)).2

/-- C1 (amended with the hypothesis `next_serial + |receives| ≤ 2 ^ 64`, so
that the exact serial-contiguity comparison of the spec coincides with the
code's wrapped `u64` comparison): a transfer failing any §4.2 validation
check leaves the state structurally unchanged. -/
theorem rejected_transfer_unchanged (s : State) (sp rc : List Bill)
    (hlen : s.next_serial + rc.length ≤ u64Mod)
    (h : specRejects s sp rc) :
    next_state s (.Transfer sp rc) = s := by
  rcases h with hnil | ⟨hsp, hrc, hcase⟩
  · subst hnil
    exact next_state_empty_spends s rc
  · refine next_state_transfer_reject hrc (bool_eq_false ?_)
    intro hA
    obtain ⟨-, -, tr, ts, hr, hs, hdup, hclash, hsv, hle⟩ := codeAcceptsB_eq_true.mp hA
    rcases hcase with h1 | h2 | h3 | h4 | h5 | h6 | h7 | h8
    · obtain ⟨b, hb, hz⟩ := h1
      exact (receiveScan_some_pos hr b hb).1 hz
    · obtain ⟨b, hb, hm⟩ := h2
      exact (receiveScan_some_pos hr b hb).2 hm
    · have hsum := receiveScan_some_sum (by decide) hr
      omega
    · obtain ⟨b, hb, hnb⟩ := h4
      rw [spendScan_none_of_missing hb hnb 0] at hs
      exact Option.noConfusion hs
    · exact h5 (nodup_of_hasDup_eq_false hdup)
    · obtain ⟨a, ha, b, hb, he⟩ := h6
      exact serialClash_eq_false hclash a ha b hb he
    · apply h7
      have hmap := serialsValid_map (by omega) hsv
      simpa using hmap
    · have ha := receiveScan_some_sum (by decide) hr
      have hb := spendScan_some_le hs
      omega

/-- C1, witness: the zero-amount-receive rejection of the repository's own
test, left entirely unchanged. -/
theorem rejected_transfer_unchanged_witness :
    next_state ⟨{⟨.Alice, 20, 0⟩}, 1⟩
        (.Transfer [⟨.Alice, 20, 0⟩] [⟨.Bob, 0, 1⟩]) =
      ⟨{⟨.Alice, 20, 0⟩}, 1⟩ :=
  rejected_transfer_unchanged _ _ _ (by decide) (by decide)

/-- C1, counterexample to the unamended claim: with
`next_serial = u64::MAX`, the receives serials `[u64::MAX, 0]` deviate from
the exact sequence `next_serial + i` (no `u64` equals `2 ^ 64`), so the
claim says the state must be unchanged; the code compares against the
wrapped sum, accepts, and commits. -/
theorem serial_wrap_rejection_cex :
    specRejects ⟨{⟨.Alice, 2, 5⟩}, u64Mod - 1⟩ [⟨.Alice, 2, 5⟩]
        [⟨.Bob, 1, u64Mod - 1⟩, ⟨.Charlie, 1, 0⟩] ∧
    next_state ⟨{⟨.Alice, 2, 5⟩}, u64Mod - 1⟩
        (.Transfer [⟨.Alice, 2, 5⟩] [⟨.Bob, 1, u64Mod - 1⟩, ⟨.Charlie, 1, 0⟩]) ≠
      ⟨{⟨.Alice, 2, 5⟩}, u64Mod - 1⟩ :=
  ⟨by decide, by decide⟩

/-- C2 (amended with the hypothesis `next_serial + |receives| < 2 ^ 64`; at
the boundary the final serial increments wrap, see the counterexample): a
transfer that passes every validation check yields the starting bill set
with all receives inserted and all spends removed, and advances
`next_serial` by `|receives|`. -/
theorem accepted_transfer_result (s : State) (sp rc : List Bill)
    (hA : codeAcceptsB s sp rc = true)
    (hlen : s.next_serial + rc.length < u64Mod) :
    next_state s (.Transfer sp rc) =
      ⟨(s.bills ∪ rc.toFinset) \ sp.toFinset, s.next_serial + rc.length⟩ := by
  rw [next_state_transfer_accept hA]
  refine (State.ext_iff' _ _).mpr ⟨?_, commitState_ns hlen⟩
  ext x
  rw [commitState_mem]
  simp [Finset.mem_sdiff, Finset.mem_union, List.mem_toFinset]

/-- C2, witness: the spec's fan-out scenario — spending `Bill(Alice,42,0)`
into three bills of 10 yields exactly those bills with `next_serial = 4`. -/
theorem accepted_transfer_result_witness :
    next_state ⟨{⟨.Alice, 42, 0⟩}, 1⟩
        (.Transfer [⟨.Alice, 42, 0⟩]
          [⟨.Alice, 10, 1⟩, ⟨.Bob, 10, 2⟩, ⟨.Charlie, 10, 3⟩]) =
      ⟨{⟨.Alice, 10, 1⟩, ⟨.Bob, 10, 2⟩, ⟨.Charlie, 10, 3⟩}, 4⟩ :=
  (accepted_transfer_result _ _ _ (by decide) (by decide)).trans (by decide)

/-- C2, counterexample to the unamended claim: a transfer accepted at
`next_serial = u64::MAX` ends with `next_serial = 0` (wrapped), not
`next_serial + |receives|`. -/
theorem accepted_transfer_serial_wrap_cex :
    codeAcceptsB ⟨{⟨.Charlie, 2, 9⟩}, u64Mod - 1⟩ [⟨.Charlie, 2, 9⟩]
        [⟨.Alice, 1, u64Mod - 1⟩] = true ∧
    next_state ⟨{⟨.Charlie, 2, 9⟩}, u64Mod - 1⟩
        (.Transfer [⟨.Charlie, 2, 9⟩] [⟨.Alice, 1, u64Mod - 1⟩]) ≠
      ⟨(({⟨.Charlie, 2, 9⟩} : Finset Bill) ∪
          ([⟨.Alice, 1, u64Mod - 1⟩] : List Bill).toFinset) \
          ([⟨.Charlie, 2, 9⟩] : List Bill).toFinset,
        (u64Mod - 1) + 1⟩ :=
  ⟨by decide, by decide⟩

/-- C7 (amended with the hypothesis `next_serial + |receives| ≤ 2 ^ 64`): a
transfer commits only if the receives serials are exactly
`next_serial, next_serial + 1, ...` in order, and any deviation returns the
state unchanged. -/
theorem serial_contiguity (s : State) (sp rc : List Bill) (hsp : sp ≠ [])
    (hrc : rc ≠ []) (hlen : s.next_serial + rc.length ≤ u64Mod) :
    (codeAcceptsB s sp rc = true →
      rc.map Bill.serial = List.range' s.next_serial rc.length) ∧
    (rc.map Bill.serial ≠ List.range' s.next_serial rc.length →
      next_state s (.Transfer sp rc) = s) := by
  constructor
  · intro hA
    obtain ⟨-, -, tr, ts, hr, hs, -, -, hsv, -⟩ := codeAcceptsB_eq_true.mp hA
    have hmap := serialsValid_map (by omega) hsv
    simpa using hmap
  · intro hdev
    refine next_state_transfer_reject hrc (bool_eq_false ?_)
    intro hA
    obtain ⟨-, -, tr, ts, hr, hs, -, -, hsv, -⟩ := codeAcceptsB_eq_true.mp hA
    apply hdev
    have hmap := serialsValid_map (by omega) hsv
    simpa using hmap

/-- C7, witness: the spec's contiguity-violation scenario — receives serials
`[u64::MAX, 4000]` against a state expecting `[1, 2]` are rejected with the
state unchanged. -/
theorem serial_contiguity_witness :
    next_state ⟨{⟨.Alice, 20, 0⟩}, 1⟩
        (.Transfer [⟨.Alice, 20, 0⟩]
          [⟨.Alice, 10, u64Mod - 1⟩, ⟨.Bob, 10, 4000⟩]) =
      ⟨{⟨.Alice, 20, 0⟩}, 1⟩ :=
  (serial_contiguity _ _ _ (by decide) (by decide) (by decide)).2 (by decide)

/-- C7, counterexample to the unamended claim: at `next_serial = u64::MAX`
the code's wrapped comparison accepts receives serials `[u64::MAX, 0]`,
which deviate from the exact sequence, and commits. -/
theorem serial_contiguity_wrap_cex :
    codeAcceptsB ⟨{⟨.Bob, 3, 7⟩}, u64Mod - 1⟩ [⟨.Bob, 3, 7⟩]
        [⟨.Alice, 1, u64Mod - 1⟩, ⟨.Bob, 2, 0⟩] = true ∧
    ([⟨.Alice, 1, u64Mod - 1⟩, ⟨.Bob, 2, 0⟩] : List Bill).map Bill.serial ≠
      List.range' (u64Mod - 1) 2 ∧
    next_state ⟨{⟨.Bob, 3, 7⟩}, u64Mod - 1⟩
        (.Transfer [⟨.Bob, 3, 7⟩] [⟨.Alice, 1, u64Mod - 1⟩, ⟨.Bob, 2, 0⟩]) ≠
      ⟨{⟨.Bob, 3, 7⟩}, u64Mod - 1⟩ :=
  ⟨by decide, by decide, by decide⟩

/-- C6: the spends accumulation is an unguarded `u64` addition.  At the
input below every receive-side check passes, the exact total spent is
`2 ^ 64` (so the `u64` accumulation overflows: it panics in debug builds and
wraps to `0` in release builds), and the wrapped accumulator makes the code
spuriously reject a transfer that conserves value exactly. -/
theorem spent_accumulation_overflow :
    receiveScan [⟨.Alice, u64Mod - 1, 0⟩, ⟨.Alice, 1, 1⟩] [⟨.Bob, 1, 2⟩] 0 =
      some 1 ∧
    (([⟨.Alice, u64Mod - 1, 0⟩, ⟨.Alice, 1, 1⟩] : List Bill).map
        Bill.amount).sum = u64Mod ∧
    spendScan {⟨.Alice, u64Mod - 1, 0⟩, ⟨.Alice, 1, 1⟩}
        [⟨.Alice, u64Mod - 1, 0⟩, ⟨.Alice, 1, 1⟩] 0 = some 0 ∧
    next_state ⟨{⟨.Alice, u64Mod - 1, 0⟩, ⟨.Alice, 1, 1⟩}, 2⟩
        (.Transfer [⟨.Alice, u64Mod - 1, 0⟩, ⟨.Alice, 1, 1⟩] [⟨.Bob, 1, 2⟩]) =
      ⟨{⟨.Alice, u64Mod - 1, 0⟩, ⟨.Alice, 1, 1⟩}, 2⟩ ∧
    (([⟨.Bob, 1, 2⟩] : List Bill).map Bill.amount).sum ≤
      (([⟨.Alice, u64Mod - 1, 0⟩, ⟨.Alice, 1, 1⟩] : List Bill).map
        Bill.amount).sum :=
  ⟨by decide, by decide, by decide, by decide, by decide⟩

theorem step_inv (s : State) (t : CashTransaction)
    (h1 : ∀ b ∈ s.bills, ∀ b' ∈ s.bills, b ≠ b' → b.serial ≠ b'.serial)
    (h2 : ∀ b ∈ s.bills, b.serial < s.next_serial)
    (h3 : s.next_serial + createdBy s t < u64Mod) :
    (∀ b ∈ (next_state s t).bills, ∀ b' ∈ (next_state s t).bills,
      b ≠ b' → b.serial ≠ b'.serial) ∧
    (∀ b ∈ (next_state s t).bills, b.serial < (next_state s t).next_serial) ∧
    (next_state s t).next_serial = s.next_serial + createdBy s t := by
  cases t with
  | Mint m a =>
    have hns : s.next_serial + 1 < u64Mod := h3
    rw [next_state_mint s m a hns]
    refine ⟨?_, ?_, rfl⟩
    · intro b hb b' hb' hne
      simp only [Finset.mem_insert] at hb hb'
      rcases hb with rfl | hb <;> rcases hb' with rfl | hb'
      · exact absurd rfl hne
      · have hlt := h2 b' hb'
        show s.next_serial ≠ b'.serial
        omega
      · have hlt := h2 b hb
        show b.serial ≠ s.next_serial
        omega
      · exact h1 b hb b' hb' hne
    · intro b hb
      simp only [Finset.mem_insert] at hb
      show b.serial < s.next_serial + 1
      rcases hb with rfl | hb
      · show s.next_serial < s.next_serial + 1
        omega
      · have hlt := h2 b hb
        omega
  | Transfer sp rc =>
    by_cases hA : codeAcceptsB s sp rc = true
    · obtain ⟨hspne, hrcne, tr, ts, hr, hs, hdup, hclash, hsv, hle⟩ :=
        codeAcceptsB_eq_true.mp hA
      have hcb : createdBy s (.Transfer sp rc) = rc.length := by
        simp [createdBy, hA]
      have hns : s.next_serial + rc.length < u64Mod := by
        rw [hcb] at h3
        exact h3
      rw [next_state_transfer_accept hA]
      have hser : rc.map Bill.serial = List.range' s.next_serial rc.length := by
        have hmap := serialsValid_map (by omega) hsv
        simpa using hmap
      have hmemser : ∀ b ∈ rc,
          s.next_serial ≤ b.serial ∧ b.serial < s.next_serial + rc.length := by
        intro b hb
        have hmm : b.serial ∈ rc.map Bill.serial := List.mem_map_of_mem _ hb
        rw [hser] at hmm
        exact List.mem_range'_1.mp hmm
      have hinj : ∀ b ∈ rc, ∀ b' ∈ rc, b.serial = b'.serial → b = b' := by
        have hnd : (rc.map Bill.serial).Nodup := by
          rw [hser]
          exact List.nodup_range' _ _ 1 (by omega)
        exact List.inj_on_of_nodup_map hnd
      have hcns : (commitState s sp rc).next_serial =
          s.next_serial + rc.length := commitState_ns hns
      refine ⟨?_, ?_, by rw [hcns, hcb]⟩
      · intro b hb b' hb' hne
        rw [commitState_mem] at hb hb'
        rcases hb.1 with hb1 | hb1 <;> rcases hb'.1 with hb1' | hb1'
        · exact h1 b hb1 b' hb1' hne
        · have ha1 := h2 b hb1
          have ha2 := (hmemser b' hb1').1
          omega
        · have ha1 := h2 b' hb1'
          have ha2 := (hmemser b hb1).1
          omega
        · intro he
          exact hne (hinj b hb1 b' hb1' he)
      · intro b hb
        rw [commitState_mem] at hb
        rw [hcns]
        rcases hb.1 with hb1 | hb1
        · have hlt := h2 b hb1
          omega
        · exact (hmemser b hb1).2
    · have hA' : codeAcceptsB s sp rc = false := bool_eq_false hA
      have hcb : createdBy s (.Transfer sp rc) = 0 := by
        simp [createdBy, hA']
      cases rc with
      | nil =>
        cases sp with
        | nil =>
          rw [next_state_empty_spends]
          refine ⟨h1, h2, ?_⟩
          rw [hcb]
          omega
        | cons a sp' =>
          rw [next_state_transfer_burn s (a :: sp') (by simp)]
          refine ⟨?_, ?_, ?_⟩
          · intro b hb b' hb' hne
            simp only [Finset.mem_filter] at hb hb'
            exact h1 b hb.1 b' hb'.1 hne
          · intro b hb
            simp only [Finset.mem_filter] at hb
            exact h2 b hb.1
          · show s.next_serial = s.next_serial + createdBy s (.Transfer (a :: sp') [])
            rw [hcb]
            omega
      | cons b rc' =>
        rw [next_state_transfer_reject (by simp) hA']
        refine ⟨h1, h2, ?_⟩
        rw [hcb]
        omega

theorem run_inv_aux : ∀ (trace : List CashTransaction) (s : State),
    (∀ b ∈ s.bills, ∀ b' ∈ s.bills, b ≠ b' → b.serial ≠ b'.serial) →
    (∀ b ∈ s.bills, b.serial < s.next_serial) →
    s.next_serial + createdFrom s trace < u64Mod →
    (∀ b ∈ (trace.foldl next_state s).bills,
      ∀ b' ∈ (trace.foldl next_state s).bills, b ≠ b' → b.serial ≠ b'.serial) ∧
    (∀ b ∈ (trace.foldl next_state s).bills,
      b.serial < (trace.foldl next_state s).next_serial) ∧
    (trace.foldl next_state s).next_serial = s.next_serial + createdFrom s trace := by
  intro trace
  induction trace with
  | nil =>
    intro s h1 h2 _
    exact ⟨h1, h2, by simp [createdFrom]⟩
  | cons t rest ih =>
    intro s h1 h2 h3
    simp only [createdFrom] at h3 ⊢
    obtain ⟨g1, g2, g3⟩ := step_inv s t h1 h2 (by omega)
    simp only [List.foldl_cons]
    obtain ⟨k1, k2, k3⟩ := ih (next_state s t) g1 g2 (by rw [g3]; omega)
    refine ⟨k1, k2, ?_⟩
    rw [k3, g3]
    omega

/-- C5 (amended: restricted to traces along which the number of bills
created stays below `2 ^ 64`, so that `next_serial` never wraps — at the
wrap the invariant genuinely fails, see the counterexample): every state
reachable from `State::new()` has pairwise distinct bill serials, every
serial below `next_serial`, and `next_serial` equal to the number of bills
created (hence non-decreasing and advancing by exactly the bills created). -/
theorem reachable_serial_invariant (trace : List CashTransaction)
    (h : createdCount trace < u64Mod) :
    (∀ b ∈ (run trace).bills, ∀ b' ∈ (run trace).bills,
      b ≠ b' → b.serial ≠ b'.serial) ∧
    (∀ b ∈ (run trace).bills, b.serial < (run trace).next_serial) ∧
    (run trace).next_serial = createdCount trace := by
  have hnew1 : ∀ b ∈ State.new.bills, ∀ b' ∈ State.new.bills,
      b ≠ b' → b.serial ≠ b'.serial := by
    intro b hb
    simp [State.new] at hb
  have hnew2 : ∀ b ∈ State.new.bills, b.serial < State.new.next_serial := by
    intro b hb
    simp [State.new] at hb
  have haux := run_inv_aux trace State.new hnew1 hnew2
    (by simpa [State.new, createdCount] using h)
  simpa [run, createdCount, State.new] using haux

/-- C5, witness: a two-mint trace. -/
theorem reachable_serial_invariant_witness :
    (run [.Mint .Alice 5, .Mint .Bob 7]).next_serial =
      createdCount [.Mint .Alice 5, .Mint .Bob 7] :=
  (reachable_serial_invariant _ (by decide)).2.2

theorem mint_replicate_run : ∀ n : Nat, n ≤ u64Mod →
    (List.replicate n (CashTransaction.Mint .Alice 5)).foldl next_state State.new =
      ⟨(Finset.range n).image (fun i => ⟨.Alice, 5, i⟩), n % u64Mod⟩ := by
  intro n
  induction n with
  | zero =>
    intro _
    refine (State.ext_iff' _ _).mpr ⟨by simp [State.new], ?_⟩
    show 0 = 0 % u64Mod
    rw [Nat.zero_mod]
  | succ k ih =>
    intro hle
    have hklt : k < u64Mod := hle
    have hkm : k % u64Mod = k := Nat.mod_eq_of_lt hklt
    rw [List.replicate_succ', List.foldl_append, ih (Nat.le_of_succ_le hle)]
    simp only [List.foldl_cons, List.foldl_nil]
    refine (State.ext_iff' _ _).mpr ⟨?_, ?_⟩
    · show insert (⟨User.Alice, 5, k % u64Mod⟩ : Bill)
          ((Finset.range k).image (fun i => (⟨User.Alice, 5, i⟩ : Bill))) =
        (Finset.range (k + 1)).image (fun i => (⟨User.Alice, 5, i⟩ : Bill))
      rw [hkm, Finset.range_succ, Finset.image_insert]
    · show (k % u64Mod + 1) % u64Mod = (k + 1) % u64Mod
      rw [hkm]

/-- C5, counterexample to the unamended claim: after `2 ^ 64` mints the
serial counter wraps to `0`, and one further mint puts a second bill with
serial `0` into the reachable state — two distinct bills with equal
serials. -/
theorem reachable_serial_collision_cex :
    (⟨.Alice, 5, 0⟩ : Bill) ∈
      (run (List.replicate u64Mod (.Mint .Alice 5) ++ [.Mint .Alice 7])).bills ∧
    (⟨.Alice, 7, 0⟩ : Bill) ∈
      (run (List.replicate u64Mod (.Mint .Alice 5) ++ [.Mint .Alice 7])).bills ∧
    (⟨.Alice, 5, 0⟩ : Bill) ≠ ⟨.Alice, 7, 0⟩ ∧
    Bill.serial ⟨.Alice, 5, 0⟩ = Bill.serial ⟨.Alice, 7, 0⟩ := by
  have hrun : run (List.replicate u64Mod (.Mint .Alice 5) ++ [.Mint .Alice 7]) =
      ⟨insert ⟨.Alice, 7, 0⟩
        ((Finset.range u64Mod).image (fun i => ⟨.Alice, 5, i⟩)), 1⟩ := by
    unfold run
    rw [List.foldl_append, mint_replicate_run u64Mod (le_refl _)]
    simp only [List.foldl_cons, List.foldl_nil]
    refine (State.ext_iff' _ _).mpr ⟨?_, ?_⟩
    · show insert (⟨User.Alice, 7, u64Mod % u64Mod⟩ : Bill)
          ((Finset.range u64Mod).image (fun i => (⟨User.Alice, 5, i⟩ : Bill))) =
        insert (⟨User.Alice, 7, 0⟩ : Bill)
          ((Finset.range u64Mod).image (fun i => (⟨User.Alice, 5, i⟩ : Bill)))
      rw [Nat.mod_self]
    · show (u64Mod % u64Mod + 1) % u64Mod = 1
      rw [Nat.mod_self]
      exact Nat.mod_eq_of_lt (by decide)
  rw [hrun]
  refine ⟨?_, Finset.mem_insert_self _ _, by decide, rfl⟩
  exact Finset.mem_insert_of_mem
    (Finset.mem_image.mpr ⟨0, Finset.mem_range.mpr (by decide), rfl⟩)

end DigitalCash
